import Mathlib

/-
Verification development for the conference-backend SFU core
(internal/websockets/websockets.go and internal/routes/routes.go).

The Go source is shallowly embedded: the registry is explicit data
(association lists standing for the Go maps), fallible library calls
(RemoveTrack, AddTrack, CreateOffer, SetLocalDescription, json.Marshal,
WriteJSON, NewTrackLocalStaticRTP) are driven by per-peer boolean
oracles recording whether the call succeeds, and each pass records the
add-track / remove-track / offer operations it performs as an event
list.  All definitions follow the Go control flow statement by
statement.
-/

set_option maxHeartbeats 1000000

namespace ConferenceBackend

/-- Embedding of a media track as seen through the pion accessors the
source uses: `ID()`, `StreamID()`, `Codec().RTPCodecCapability`
(collapsed to a string tag) and `SSRC()`. -/
structure Track where
  id : String
  streamID : String
  codec : String
  ssrc : Nat
deriving DecidableEq

/-- Embedding of `webrtc.RTPSender`: the source only ever asks
`sender.Track()`, which is nil after a `RemoveTrack`. -/
structure RTPSender where
  track : Option Track
deriving DecidableEq

/-- Embedding of `webrtc.RTPReceiver`: the source only ever asks
`receiver.Track()`. -/
structure RTPReceiver where
  track : Option Track
deriving DecidableEq

/-- Embedding of `webrtc.PeerConnectionState`. -/
inductive PCState where
  | new
  | connecting
  | connected
  | disconnected
  | failed
  | closed
deriving DecidableEq

/-- Embedding of one entry of `peerConnections[roomUUID]`
(`peerConnectionState` in the source): the peer connection together
with its signaling channel.  `pid` models pointer identity of the Go
struct.  The `...Ok` fields are oracles for the outcomes of the
fallible library calls the source makes on this peer:
`RemoveTrack`, `AddTrack`, `CreateOffer`, `SetLocalDescription`,
`json.Marshal` of the offer, and `websocket.WriteJSON`. -/
structure PeerConn where
  pid : Nat
  connState : PCState
  senders : List RTPSender
  receivers : List RTPReceiver
  removeTrackOk : Bool
  addTrackOk : Bool
  createOfferOk : Bool
  setLocalDescOk : Bool
  marshalOk : Bool
  writeJsonOk : Bool
deriving DecidableEq

/-- Operations one `attemptSync` iteration performs on a single peer:
a `RemoveTrack` call, an `AddTrack` call (each with the track id), or
a `WriteJSON` of an `{event:"offer"}` frame. -/
inductive SyncEv where
  | removeTrack (tid : String)
  | addTrack (tid : String)
  | offer
deriving DecidableEq

/-- Operations of one whole `attemptSync` pass, tagged with the index
of the peer they happened on; `removedPeer i` is the splice of the
closed peer at index `i`. -/
inductive RoomEv where
  | removedPeer (i : Nat)
  | peerEv (i : Nat) (e : SyncEv)
deriving DecidableEq

/-- Ids of the tracks a peer currently sends: the non-nil
`sender.Track().ID()` values, in sender order. -/
def senderIds (ss : List RTPSender) : List String :=
  ss.filterMap (fun s => s.track.map Track.id)

/-- Ids of the tracks a peer uploads: the non-nil
`receiver.Track().ID()` values, in receiver order. -/
def receiverTrackIds (rs : List RTPReceiver) : List String :=
  rs.filterMap (fun r => r.track.map Track.id)

/-- Association-list lookup, embedding a Go map read `m[k]`. -/
def alookup {α : Type} : List (String × α) → String → Option α
  | [], _ => none
  | (k, v) :: rest, key => if k = key then some v else alookup rest key

/-- Association-list update, embedding a Go map write `m[k] = v`. -/
def upsert {α : Type} : List (String × α) → String → α → List (String × α)
  | [], k, v => [(k, v)]
  | (k0, v0) :: rest, k, v =>
      if k0 = k then (k, v) :: rest else (k0, v0) :: upsert rest k v

/-- The key set of the `trackLocals[roomUUID]` map. -/
def trackKeys (tl : List (String × Track)) : List String :=
  tl.map Prod.fst

/-- Result of the senders loop of `attemptSync` (websockets.go lines
252 to 265): the updated sender list, the `existingSenders` ids
collected so far, the remove-track operations performed, and whether
the loop completed without a `RemoveTrack` error. -/
structure SendersResult where
  senders : List RTPSender
  existing : List String
  evs : List SyncEv
  ok : Bool
deriving DecidableEq

/-- Senders loop of `attemptSync`: for each sender with a non-nil
track, record its id in `existingSenders`; if the id is no longer in
`trackLocals[roomUUID]`, call `RemoveTrack` (here: the sender keeps a
nil track on success), and abort the whole pass on error. -/
def processSenders (tl : List (String × Track)) (removeOk : Bool) :
    List RTPSender → SendersResult
  | [] => ⟨[], [], [], true⟩
  | s :: rest =>
    match s.track with
    | none =>
        let r := processSenders tl removeOk rest
        ⟨s :: r.senders, r.existing, r.evs, r.ok⟩
    | some t =>
        if (alookup tl t.id).isNone then
          if removeOk then
            let r := processSenders tl removeOk rest
            ⟨⟨none⟩ :: r.senders, t.id :: r.existing,
              SyncEv.removeTrack t.id :: r.evs, r.ok⟩
          else
            ⟨s :: rest, [t.id], [SyncEv.removeTrack t.id], false⟩
        else
          let r := processSenders tl removeOk rest
          ⟨s :: r.senders, t.id :: r.existing, r.evs, r.ok⟩

/-- Result of the add loop of `attemptSync` (websockets.go lines 277
to 283): the new senders created by `AddTrack`, the add-track
operations performed, and whether the loop completed without an
`AddTrack` error. -/
structure AddsResult where
  newSenders : List RTPSender
  evs : List SyncEv
  ok : Bool
deriving DecidableEq

/-- Add loop of `attemptSync`: every track of `trackLocals[roomUUID]`
whose id is not in `existingSenders` is added as a fresh sender; the
pass aborts on an `AddTrack` error. -/
def processAdds (addOk : Bool) (existing : List String) :
    List (String × Track) → AddsResult
  | [] => ⟨[], [], true⟩
  | (tid, t) :: rest =>
    if tid ∈ existing then processAdds addOk existing rest
    else if addOk then
      let r := processAdds addOk existing rest
      ⟨⟨some t⟩ :: r.newSenders, SyncEv.addTrack tid :: r.evs, r.ok⟩
    else
      ⟨[], [SyncEv.addTrack tid], false⟩

/-- Result of processing one peer inside `attemptSync`: the updated
peer, the operations performed on it, and whether processing ran to
completion (`ok = false` makes `attemptSync` return `true`). -/
structure PeerSyncResult where
  peer : PeerConn
  evs : List SyncEv
  ok : Bool
deriving DecidableEq

/-- The senders loop of `attemptSync` applied to one peer. -/
def peerSres (tl : List (String × Track)) (p : PeerConn) : SendersResult :=
  processSenders tl p.removeTrackOk p.senders

/-- The add loop of `attemptSync` applied to one peer, with
`existingSenders` holding the ids collected from the senders loop and
from the receivers loop (websockets.go lines 267 to 274), in that
order. -/
def peerAres (tl : List (String × Track)) (p : PeerConn) : AddsResult :=
  processAdds p.addTrackOk
    ((peerSres tl p).existing ++ receiverTrackIds p.receivers) tl

/-- Body of the `attemptSync` peer loop for one non-closed peer
(websockets.go lines 249 to 304): senders loop, receivers loop
(which only extends `existingSenders`), add loop, then
`CreateOffer`, `SetLocalDescription`, `json.Marshal` and
`WriteJSON` of the `{event:"offer"}` frame; any failure aborts with
`ok = false`.  The offer frame is handed to `WriteJSON` only after
`CreateOffer`, `SetLocalDescription` and `json.Marshal` succeeded,
which is when the `offer` event is recorded. -/
def syncPeer (tl : List (String × Track)) (p : PeerConn) : PeerSyncResult :=
  if !(peerSres tl p).ok then
    ⟨{ p with senders := (peerSres tl p).senders }, (peerSres tl p).evs, false⟩
  else
    let p2 := { p with senders := (peerSres tl p).senders ++ (peerAres tl p).newSenders }
    if !(peerAres tl p).ok then
      ⟨p2, (peerSres tl p).evs ++ (peerAres tl p).evs, false⟩
    else if !p.createOfferOk then
      ⟨p2, (peerSres tl p).evs ++ (peerAres tl p).evs, false⟩
    else if !p.setLocalDescOk then
      ⟨p2, (peerSres tl p).evs ++ (peerAres tl p).evs, false⟩
    else if !p.marshalOk then
      ⟨p2, (peerSres tl p).evs ++ (peerAres tl p).evs, false⟩
    else if !p.writeJsonOk then
      ⟨p2, (peerSres tl p).evs ++ (peerAres tl p).evs ++ [SyncEv.offer], false⟩
    else ⟨p2, (peerSres tl p).evs ++ (peerAres tl p).evs ++ [SyncEv.offer], true⟩

/-- Result of one whole `attemptSync` pass: the updated peer list of
the room, the operations performed, and the `tryAgain` return value. -/
structure SyncPassResult where
  peers : List PeerConn
  evs : List RoomEv
  tryAgain : Bool
deriving DecidableEq

/-- One `attemptSync` pass (websockets.go lines 242 to 308), walking
the peer list from index `i`: a peer in the `Closed` state is spliced
out of the list and the pass returns `true` at once; otherwise the
peer is processed by `syncPeer`, a failure there returns `true`
keeping the partial updates, and after every peer is processed the
pass returns `false`. -/
def attemptSyncGo (tl : List (String × Track)) :
    List PeerConn → Nat → SyncPassResult
  | [], _ => ⟨[], [], false⟩
  | p :: rest, i =>
    if p.connState = PCState.closed then
      ⟨rest, [RoomEv.removedPeer i], true⟩
    else
      let r := syncPeer tl p
      if r.ok then
        let tail := attemptSyncGo tl rest (i + 1)
        ⟨r.peer :: tail.peers, r.evs.map (RoomEv.peerEv i) ++ tail.evs,
          tail.tryAgain⟩
      else
        ⟨r.peer :: rest, r.evs.map (RoomEv.peerEv i), true⟩

/-- The `attemptSync` closure of `signalPeerConnections`, started at
peer index 0. -/
def attemptSync (tl : List (String × Track)) (peers : List PeerConn) :
    SyncPassResult :=
  attemptSyncGo tl peers 0

/-- Embedding of `dispatchKeyFrame` (websockets.go lines 52 to 69):
for every peer of the room and every receiver with a non-nil track,
a PictureLossIndication RTCP packet carrying the track SSRC is
written; the result is the list of emitted PLI SSRCs. -/
def dispatchKeyFrame (peers : List PeerConn) : List Nat :=
  peers.foldr
    (fun p acc => p.receivers.filterMap (fun r => r.track.map Track.ssrc) ++ acc)
    []

/-- Result of the retry loop of `signalPeerConnections`: final peer
list, all operations performed, the number of `attemptSync` calls
made, and whether the 25-attempt budget was exhausted (in which case
the source schedules `signalPeerConnections(roomUUID)` again after 3
seconds). -/
structure SignalResult where
  peers : List PeerConn
  evs : List RoomEv
  attempts : Nat
  rescheduled : Bool
deriving DecidableEq

/-- Retry loop of `signalPeerConnections` (websockets.go lines 310 to
324) with `fuel` attempts remaining: with no fuel left the source
spawns the 3-second reschedule goroutine and returns; otherwise it
calls `attemptSync` and loops while that returns `true`. -/
def signalLoopGo (tl : List (String × Track)) :
    Nat → List PeerConn → SignalResult
  | 0, peers => ⟨peers, [], 0, true⟩
  | fuel + 1, peers =>
    let r := attemptSync tl peers
    if r.tryAgain then
      let rest := signalLoopGo tl fuel r.peers
      ⟨rest.peers, r.evs ++ rest.evs, rest.attempts + 1, rest.rescheduled⟩
    else ⟨r.peers, r.evs, 1, false⟩

/-- Full result of `signalPeerConnections`: the deferred epilogue
releases the lock and then calls `dispatchKeyFrame(roomUUID)`, and a
Go `defer` runs on every return, the exhaustion return included, so
`pli` is computed on both exit paths. -/
structure SignalFull where
  peers : List PeerConn
  evs : List RoomEv
  attempts : Nat
  rescheduled : Bool
  pli : List Nat
deriving DecidableEq

/-- Embedding of `signalPeerConnections` (websockets.go lines 235 to
325): the retry loop with a budget of 25 attempts, followed by the
deferred `dispatchKeyFrame` on the final peer list. -/
def signalPeerConnections (tl : List (String × Track))
    (peers : List PeerConn) : SignalFull :=
  let r := signalLoopGo tl 25 peers
  ⟨r.peers, r.evs, r.attempts, r.rescheduled, dispatchKeyFrame r.peers⟩

/-- Embedding of `webrtc.TrackRemote` as `addTrack` consumes it:
`Codec().RTPCodecCapability`, `ID()`, `StreamID()`, plus the oracle
for the outcome of `webrtc.NewTrackLocalStaticRTP`. -/
structure RemoteTrack where
  id : String
  streamID : String
  codec : String
  newLocalOk : Bool
deriving DecidableEq

/-- The `trackLocals` registry: room id to track map. -/
def TrackRegistry : Type := List (String × List (String × Track))

/-- Embedding of `addTrack` (websockets.go lines 328 to 348), the
registry mutation only (the lock and the deferred
`signalPeerConnections` trigger are outside the returned value):
build a local track copying codec capability, id and stream id from
the remote; a `NewTrackLocalStaticRTP` error panics, modelled as
`none`; otherwise the room map is created lazily when absent and the
local track is inserted keyed by the remote id. -/
def addTrackReg (t : RemoteTrack) (roomUUID : String) (reg : TrackRegistry) :
    Option (Track × TrackRegistry) :=
  if !t.newLocalOk then none
  else
    let trackLocal : Track := ⟨t.id, t.streamID, t.codec, 0⟩
    let m := (alookup reg roomUUID).getD []
    some (trackLocal, upsert reg roomUUID (upsert m t.id trackLocal))

/-- Embedding of `removeTrack` (websockets.go lines 351 to 360), the
registry mutation only: delete the track id from the room map. -/
def removeTrackReg (t : Track) (roomUUID : String) (reg : TrackRegistry) :
    TrackRegistry :=
  upsert reg roomUUID
    (((alookup reg roomUUID).getD []).filter (fun kt => kt.1 ≠ t.id))

/-- The `peerConnections` registry: room id to peer list. -/
def PeerRegistry : Type := List (String × List PeerConn)

/-- The peer list of a room, `peerConnections[roomUUID]`: a Go map
read of a missing key yields the zero value, the empty slice. -/
def peersOf (reg : PeerRegistry) (room : String) : List PeerConn :=
  (alookup reg room).getD []

/-- Embedding of the registration step of `Handler` (websockets.go
line 136): `peerConnections[roomUUID] = append(peerConnections[roomUUID], ...)`. -/
def registerPeer (reg : PeerRegistry) (room : String) (p : PeerConn) :
    PeerRegistry :=
  upsert reg room (peersOf reg room ++ [p])

/-- Embedding of the room-id extraction of `Handler` (websockets.go
lines 81 to 85): `roomUUID, ok := vars["uuid"]` leaves `roomUUID`
the empty string when the route variable is absent, the handler
prints a diagnostic (the returned flag) and continues; there is no
early return on that branch. -/
def muxVarsRoomUUID (vars : List (String × String)) : String × Bool :=
  match alookup vars "uuid" with
  | some v => (v, false)
  | none => ("", true)

/-- Embedding of one inbound signaling frame as the read loop
distinguishes it: whether the raw bytes unmarshal into
`websocketMessage`, the `event` field, and the oracles for the two
per-event fallible steps, the `json.Unmarshal` of the `data` payload
and its application (`AddICECandidate` or `SetRemoteDescription`). -/
structure InboundFrame where
  validJson : Bool
  event : String
  dataDecodeOk : Bool
  applyOk : Bool
deriving DecidableEq

/-- One iteration of the read loop of `Handler` (websockets.go lines
193 to 231) on a delivered frame; `true` means the loop returns,
tearing the session down.  The `switch` has cases only for
`candidate` and `answer` and no default, so a frame with any other
event falls through and the loop continues. -/
def readLoopTerminates (f : InboundFrame) : Bool :=
  if !f.validJson then true
  else if f.event = "candidate" then !f.dataDecodeOk || !f.applyOk
  else if f.event = "answer" then !f.dataDecodeOk || !f.applyOk
  else false

/-- Embedding of the keyframe-pinger goroutine of `Handler`
(websockets.go lines 95 to 99): `for range ticker.C`
with a body that unconditionally calls `dispatchKeyFrame(roomUUID)`.
The goroutine captures no cancellation channel, never calls
`ticker.Stop`, and never consults session state, so the tick at
which the owning session ends (`sessionEndedAt`, the parameter the
loop body ignores) does not influence which of the first `n` ticks
dispatch: all of them do. -/
def pingerDispatchTicks (_sessionEndedAt : Nat) (n : Nat) : List Nat :=
  (List.range n).filter (fun _tick => true)

/-! Concrete example inputs used by the closed instances below. -/

/-- Example track. -/
def trackA : Track := ⟨"tA", "sA", "vp8", 11⟩

/-- Example room track map containing only `trackA`. -/
def tlExample : List (String × Track) := [("tA", trackA)]

/-- Example peer that uploads `trackA`: the track appears among its
receivers, so it must never get a sender for it. -/
def peerOriginA : PeerConn :=
  ⟨0, PCState.connected, [], [⟨some trackA⟩], true, true, true, true, true, true⟩

/-- Example peer with no media in either direction. -/
def peerBlank : PeerConn :=
  ⟨1, PCState.connected, [], [], true, true, true, true, true, true⟩

/-- Example peer with no media, for single-peer rooms. -/
def peerBlank0 : PeerConn :=
  ⟨0, PCState.new, [], [], true, true, true, true, true, true⟩

/-- Example peer whose CreateOffer call always fails and which
receives `trackA`. -/
def peerOfferFail : PeerConn :=
  ⟨0, PCState.new, [], [⟨some trackA⟩], true, true, false, true, true, true⟩

/-- Example peer in the Closed connection state. -/
def peerClosed : PeerConn :=
  ⟨1, PCState.closed, [], [], true, true, true, true, true, true⟩

/-- Example remote track. -/
def remoteA : RemoteTrack := ⟨"tA", "sA", "vp8", true⟩

/-! Basic lemmas about the list helpers. -/

theorem senderIds_cons_none {rest : List RTPSender} :
    senderIds (⟨none⟩ :: rest) = senderIds rest := rfl

theorem senderIds_cons_some {t : Track} {rest : List RTPSender} :
    senderIds (⟨some t⟩ :: rest) = t.id :: senderIds rest := rfl

theorem senderIds_append (a b : List RTPSender) :
    senderIds (a ++ b) = senderIds a ++ senderIds b := by
  simp [senderIds]

theorem alookup_isSome_iff {α : Type} (l : List (String × α)) (k : String) :
    (alookup l k).isSome = true ↔ k ∈ l.map Prod.fst := by
  induction l with
  | nil => simp [alookup]
  | cons kv rest ih =>
    obtain ⟨k0, v⟩ := kv
    by_cases h : k0 = k
    · subst h
      simp [alookup]
    · simp [alookup, h, ih, Ne.symm h]

theorem alookup_upsert_same {α : Type} (l : List (String × α)) (k : String) (v : α) :
    alookup (upsert l k v) k = some v := by
  induction l with
  | nil => simp [upsert, alookup]
  | cons kv rest ih =>
    obtain ⟨k0, v0⟩ := kv
    by_cases h : k0 = k
    · simp [upsert, h, alookup]
    · simp [upsert, h, alookup, ih]

theorem alookup_upsert_other {α : Type} (l : List (String × α)) (k k2 : String)
    (v : α) (h : k2 ≠ k) : alookup (upsert l k v) k2 = alookup l k2 := by
  induction l with
  | nil => simp [upsert, alookup, Ne.symm h]
  | cons kv rest ih =>
    obtain ⟨k0, v0⟩ := kv
    by_cases h0 : k0 = k
    · subst h0
      simp [upsert, alookup, Ne.symm h]
    · simp [upsert, h0, alookup, ih]

/-! Characterization of the senders loop. -/

theorem mem_trackKeys (tl : List (String × Track)) (k : String) :
    k ∈ trackKeys tl ↔ (alookup tl k).isSome = true :=
  (alookup_isSome_iff tl k).symm

theorem alookup_isNone_iff (tl : List (String × Track)) (k : String) :
    (alookup tl k).isNone = true ↔ k ∉ trackKeys tl := by
  rw [mem_trackKeys]
  cases alookup tl k <;> simp

theorem trackKeys_cons (tid : String) (t : Track) (rest : List (String × Track)) :
    trackKeys ((tid, t) :: rest) = tid :: trackKeys rest := rfl

theorem processSenders_ok_existing (tl : List (String × Track)) (rOk : Bool)
    (ss : List RTPSender) (h : (processSenders tl rOk ss).ok = true) :
    (processSenders tl rOk ss).existing = senderIds ss := by
  induction ss with
  | nil => rfl
  | cons s rest ih =>
    obtain ⟨tr⟩ := s
    cases tr with
    | none =>
      simp only [processSenders] at h ⊢
      rw [senderIds_cons_none]
      exact ih h
    | some t =>
      rw [senderIds_cons_some]
      by_cases hl : (alookup tl t.id).isNone = true
      · rcases Bool.dichotomy rOk with hr | hr <;> subst hr
        · simp only [processSenders] at h
          rw [if_pos hl, if_neg (by simp)] at h
          simp at h
        · simp only [processSenders] at h ⊢
          rw [if_pos hl, if_pos (by trivial)] at h ⊢
          have h2 : (processSenders tl true rest).ok = true := h
          show t.id :: (processSenders tl true rest).existing = t.id :: senderIds rest
          rw [ih h2]
      · simp only [processSenders] at h ⊢
        rw [if_neg hl] at h ⊢
        have h2 : (processSenders tl rOk rest).ok = true := h
        show t.id :: (processSenders tl rOk rest).existing = t.id :: senderIds rest
        rw [ih h2]

theorem processSenders_ok_mem (tl : List (String × Track)) (rOk : Bool)
    (ss : List RTPSender) (h : (processSenders tl rOk ss).ok = true) (x : String) :
    x ∈ senderIds (processSenders tl rOk ss).senders ↔
        x ∈ senderIds ss ∧ x ∈ trackKeys tl := by
  induction ss with
  | nil => simp [processSenders, senderIds]
  | cons s rest ih =>
    obtain ⟨tr⟩ := s
    cases tr with
    | none =>
      simp only [processSenders] at h ⊢
      rw [senderIds_cons_none]
      have h2 : (processSenders tl rOk rest).ok = true := h
      show x ∈ senderIds (⟨none⟩ :: (processSenders tl rOk rest).senders) ↔
        x ∈ senderIds rest ∧ x ∈ trackKeys tl
      rw [senderIds_cons_none]
      exact ih h2
    | some t =>
      by_cases hl : (alookup tl t.id).isNone = true
      · have htk : t.id ∉ trackKeys tl := (alookup_isNone_iff tl t.id).mp hl
        rcases Bool.dichotomy rOk with hr | hr <;> subst hr
        · simp only [processSenders] at h
          rw [if_pos hl, if_neg (by simp)] at h
          simp at h
        · simp only [processSenders] at h ⊢
          rw [if_pos hl, if_pos (by trivial)] at h ⊢
          have h2 : (processSenders tl true rest).ok = true := h
          show x ∈ senderIds (⟨none⟩ :: (processSenders tl true rest).senders) ↔
            x ∈ senderIds (⟨some t⟩ :: rest) ∧ x ∈ trackKeys tl
          rw [senderIds_cons_none, senderIds_cons_some, List.mem_cons, ih h2]
          constructor
          · rintro ⟨hx, hk⟩
            exact ⟨Or.inr hx, hk⟩
          · rintro ⟨hx | hx, hk⟩
            · exact absurd (hx ▸ hk) htk
            · exact ⟨hx, hk⟩
      · have htk : t.id ∈ trackKeys tl := by
          by_contra hc
          exact hl ((alookup_isNone_iff tl t.id).mpr hc)
        simp only [processSenders] at h ⊢
        rw [if_neg hl] at h ⊢
        have h2 : (processSenders tl rOk rest).ok = true := h
        show x ∈ senderIds (⟨some t⟩ :: (processSenders tl rOk rest).senders) ↔
          x ∈ senderIds (⟨some t⟩ :: rest) ∧ x ∈ trackKeys tl
        rw [senderIds_cons_some, senderIds_cons_some, List.mem_cons,
          List.mem_cons, ih h2]
        constructor
        · rintro (hx | ⟨hx, hk⟩)
          · exact ⟨Or.inl hx, by rw [hx]; exact htk⟩
          · exact ⟨Or.inr hx, hk⟩
        · rintro ⟨hx | hx, hk⟩
          · exact Or.inl hx
          · exact Or.inr ⟨hx, hk⟩

theorem processSenders_id (tl : List (String × Track)) (rOk : Bool)
    (ss : List RTPSender) (hall : ∀ x ∈ senderIds ss, x ∈ trackKeys tl) :
    processSenders tl rOk ss = ⟨ss, senderIds ss, [], true⟩ := by
  induction ss with
  | nil => rfl
  | cons s rest ih =>
    obtain ⟨tr⟩ := s
    cases tr with
    | none =>
      have hrest := ih (fun x hx => hall x (by rw [senderIds_cons_none]; exact hx))
      simp only [processSenders]
      rw [senderIds_cons_none, hrest]
    | some t =>
      have htk : t.id ∈ trackKeys tl := hall t.id (by
        rw [senderIds_cons_some]; exact List.mem_cons_self _ _)
      have hl : ¬(alookup tl t.id).isNone = true := by
        intro hc
        exact (alookup_isNone_iff tl t.id).mp hc htk
      have hrest := ih (fun x hx => hall x (by
        rw [senderIds_cons_some]; exact List.mem_cons_of_mem _ hx))
      simp only [processSenders]
      rw [if_neg hl, senderIds_cons_some, hrest]

theorem processSenders_no_offer (tl : List (String × Track)) (rOk : Bool)
    (ss : List RTPSender) : SyncEv.offer ∉ (processSenders tl rOk ss).evs := by
  induction ss with
  | nil => simp [processSenders]
  | cons s rest ih =>
    obtain ⟨tr⟩ := s
    cases tr with
    | none =>
      simp only [processSenders]
      exact ih
    | some t =>
      by_cases hl : (alookup tl t.id).isNone = true
      · rcases Bool.dichotomy rOk with hr | hr <;> subst hr
        · simp only [processSenders]
          rw [if_pos hl, if_neg (by simp)]
          intro hmem
          rcases List.mem_cons.mp hmem with hc | hc
          · exact SyncEv.noConfusion hc
          · simp at hc
        · simp only [processSenders]
          rw [if_pos hl, if_pos (by trivial)]
          intro hmem
          rcases List.mem_cons.mp hmem with hc | hc
          · exact SyncEv.noConfusion hc
          · exact ih hc
      · simp only [processSenders]
        rw [if_neg hl]
        exact ih

/-! Characterization of the add loop. -/

theorem processAdds_ok_mem (aOk : Bool) (ex : List String)
    (tl : List (String × Track)) (hwf : ∀ kt ∈ tl, kt.2.id = kt.1)
    (h : (processAdds aOk ex tl).ok = true) (x : String) :
    x ∈ senderIds (processAdds aOk ex tl).newSenders ↔
      x ∈ trackKeys tl ∧ x ∉ ex := by
  induction tl with
  | nil => simp [processAdds, senderIds, trackKeys]
  | cons kt rest ih =>
    obtain ⟨tid, t⟩ := kt
    have hid : t.id = tid := hwf (tid, t) (List.mem_cons_self _ _)
    have hwfrest : ∀ kt ∈ rest, kt.2.id = kt.1 :=
      fun kt hkt => hwf kt (List.mem_cons_of_mem _ hkt)
    by_cases hm : tid ∈ ex
    · simp only [processAdds] at h ⊢
      rw [if_pos hm] at h ⊢
      rw [ih hwfrest h, trackKeys_cons, List.mem_cons]
      constructor
      · rintro ⟨hx, hnex⟩
        exact ⟨Or.inr hx, hnex⟩
      · rintro ⟨hx | hx, hnex⟩
        · exact absurd (by rw [hx]; exact hm) hnex
        · exact ⟨hx, hnex⟩
    · rcases Bool.dichotomy aOk with ha | ha <;> subst ha
      · simp only [processAdds] at h
        rw [if_neg hm, if_neg (by simp)] at h
        simp at h
      · simp only [processAdds] at h ⊢
        rw [if_neg hm, if_pos (by trivial)] at h ⊢
        have h2 : (processAdds true ex rest).ok = true := h
        show x ∈ senderIds (⟨some t⟩ :: (processAdds true ex rest).newSenders) ↔
          x ∈ trackKeys ((tid, t) :: rest) ∧ x ∉ ex
        rw [senderIds_cons_some, hid, List.mem_cons, ih hwfrest h2,
          trackKeys_cons, List.mem_cons]
        constructor
        · rintro (hx | ⟨hx, hnex⟩)
          · exact ⟨Or.inl hx, by rw [hx]; exact hm⟩
          · exact ⟨Or.inr hx, hnex⟩
        · rintro ⟨hx | hx, hnex⟩
          · exact Or.inl hx
          · exact Or.inr ⟨hx, hnex⟩

theorem processAdds_none (aOk : Bool) (ex : List String)
    (tl : List (String × Track)) (hall : ∀ k ∈ trackKeys tl, k ∈ ex) :
    processAdds aOk ex tl = ⟨[], [], true⟩ := by
  induction tl with
  | nil => rfl
  | cons kt rest ih =>
    obtain ⟨tid, t⟩ := kt
    have hm : tid ∈ ex := hall tid (by simp [trackKeys])
    have hrest := ih (fun k hk => hall k (by
      rw [trackKeys_cons]
      exact List.mem_cons_of_mem _ hk))
    simp only [processAdds]
    rw [if_pos hm]
    exact hrest

theorem processAdds_no_offer (aOk : Bool) (ex : List String)
    (tl : List (String × Track)) : SyncEv.offer ∉ (processAdds aOk ex tl).evs := by
  induction tl with
  | nil => simp [processAdds]
  | cons kt rest ih =>
    obtain ⟨tid, t⟩ := kt
    by_cases hm : tid ∈ ex
    · simp only [processAdds]
      rw [if_pos hm]
      exact ih
    · rcases Bool.dichotomy aOk with ha | ha <;> subst ha
      · simp only [processAdds]
        rw [if_neg hm, if_neg (by simp)]
        intro hmem
        rcases List.mem_cons.mp hmem with hc | hc
        · exact SyncEv.noConfusion hc
        · simp at hc
      · simp only [processAdds]
        rw [if_neg hm, if_pos (by trivial)]
        intro hmem
        rcases List.mem_cons.mp hmem with hc | hc
        · exact SyncEv.noConfusion hc
        · exact ih hc

/-! Characterization of the per-peer body of the pass. -/

theorem syncPeer_ok_inv (tl : List (String × Track)) (p : PeerConn)
    (h : (syncPeer tl p).ok = true) :
    (peerSres tl p).ok = true ∧ (peerAres tl p).ok = true ∧
    p.createOfferOk = true ∧ p.setLocalDescOk = true ∧
    p.marshalOk = true ∧ p.writeJsonOk = true := by
  have hs : (peerSres tl p).ok = true := by
    by_contra hs
    rw [Bool.not_eq_true] at hs
    simp only [syncPeer] at h
    rw [if_pos (by simp [hs])] at h
    simp at h
  have ha : (peerAres tl p).ok = true := by
    by_contra ha
    rw [Bool.not_eq_true] at ha
    simp only [syncPeer] at h
    rw [if_neg (by simp [hs]), if_pos (by simp [ha])] at h
    simp at h
  have hco : p.createOfferOk = true := by
    by_contra hco
    rw [Bool.not_eq_true] at hco
    simp only [syncPeer] at h
    rw [if_neg (by simp [hs]), if_neg (by simp [ha]), if_pos (by simp [hco])] at h
    simp at h
  have hsl : p.setLocalDescOk = true := by
    by_contra hsl
    rw [Bool.not_eq_true] at hsl
    simp only [syncPeer] at h
    rw [if_neg (by simp [hs]), if_neg (by simp [ha]), if_neg (by simp [hco]),
      if_pos (by simp [hsl])] at h
    simp at h
  have hm : p.marshalOk = true := by
    by_contra hm
    rw [Bool.not_eq_true] at hm
    simp only [syncPeer] at h
    rw [if_neg (by simp [hs]), if_neg (by simp [ha]), if_neg (by simp [hco]),
      if_neg (by simp [hsl]), if_pos (by simp [hm])] at h
    simp at h
  have hw : p.writeJsonOk = true := by
    by_contra hw
    rw [Bool.not_eq_true] at hw
    simp only [syncPeer] at h
    rw [if_neg (by simp [hs]), if_neg (by simp [ha]), if_neg (by simp [hco]),
      if_neg (by simp [hsl]), if_neg (by simp [hm]), if_pos (by simp [hw])] at h
    simp at h
  exact ⟨hs, ha, hco, hsl, hm, hw⟩

theorem syncPeer_ok_eq (tl : List (String × Track)) (p : PeerConn)
    (hs : (peerSres tl p).ok = true) (ha : (peerAres tl p).ok = true)
    (hco : p.createOfferOk = true) (hsl : p.setLocalDescOk = true)
    (hm : p.marshalOk = true) (hw : p.writeJsonOk = true) :
    syncPeer tl p =
      ⟨{ p with senders := (peerSres tl p).senders ++ (peerAres tl p).newSenders },
        (peerSres tl p).evs ++ (peerAres tl p).evs ++ [SyncEv.offer], true⟩ := by
  simp only [syncPeer]
  rw [if_neg (by simp [hs]), if_neg (by simp [ha]), if_neg (by simp [hco]),
    if_neg (by simp [hsl]), if_neg (by simp [hm]), if_neg (by simp [hw])]

theorem syncPeer_ok_fields (tl : List (String × Track)) (p : PeerConn)
    (h : (syncPeer tl p).ok = true) :
    (syncPeer tl p).peer.pid = p.pid ∧
    (syncPeer tl p).peer.connState = p.connState ∧
    (syncPeer tl p).peer.receivers = p.receivers ∧
    (syncPeer tl p).peer.removeTrackOk = p.removeTrackOk ∧
    (syncPeer tl p).peer.addTrackOk = p.addTrackOk ∧
    (syncPeer tl p).peer.createOfferOk = p.createOfferOk ∧
    (syncPeer tl p).peer.setLocalDescOk = p.setLocalDescOk ∧
    (syncPeer tl p).peer.marshalOk = p.marshalOk ∧
    (syncPeer tl p).peer.writeJsonOk = p.writeJsonOk := by
  obtain ⟨hs, ha, hco, hsl, hm, hw⟩ := syncPeer_ok_inv tl p h
  rw [syncPeer_ok_eq tl p hs ha hco hsl hm hw]
  exact ⟨rfl, rfl, rfl, rfl, rfl, rfl, rfl, rfl, rfl⟩

theorem syncPeer_ok_mem (tl : List (String × Track)) (p : PeerConn)
    (hwf : ∀ kt ∈ tl, kt.2.id = kt.1)
    (h : (syncPeer tl p).ok = true) (x : String) :
    x ∈ senderIds (syncPeer tl p).peer.senders ↔
      (x ∈ senderIds p.senders ∧ x ∈ trackKeys tl) ∨
      (x ∈ trackKeys tl ∧ x ∉ senderIds p.senders ∧
        x ∉ receiverTrackIds p.receivers) := by
  obtain ⟨hs, ha, hco, hsl, hm, hw⟩ := syncPeer_ok_inv tl p h
  rw [syncPeer_ok_eq tl p hs ha hco hsl hm hw]
  show x ∈ senderIds ((peerSres tl p).senders ++ (peerAres tl p).newSenders) ↔ _
  rw [senderIds_append, List.mem_append]
  simp only [peerAres, peerSres]
  rw [processSenders_ok_mem tl p.removeTrackOk p.senders hs x]
  rw [processAdds_ok_mem p.addTrackOk
    ((processSenders tl p.removeTrackOk p.senders).existing ++
      receiverTrackIds p.receivers) tl hwf ha x]
  rw [processSenders_ok_existing tl p.removeTrackOk p.senders hs]
  rw [List.mem_append]
  constructor
  · rintro (⟨hx, hk⟩ | ⟨hk, hnx⟩)
    · exact Or.inl ⟨hx, hk⟩
    · push_neg at hnx
      exact Or.inr ⟨hk, hnx.1, hnx.2⟩
  · rintro (⟨hx, hk⟩ | ⟨hk, hnx, hnr⟩)
    · exact Or.inl ⟨hx, hk⟩
    · exact Or.inr ⟨hk, by push_neg; exact ⟨hnx, hnr⟩⟩

theorem syncPeer_converged (tl : List (String × Track)) (p : PeerConn)
    (hS : ∀ x ∈ senderIds p.senders, x ∈ trackKeys tl)
    (hT : ∀ k ∈ trackKeys tl,
      k ∈ senderIds p.senders ∨ k ∈ receiverTrackIds p.receivers)
    (hco : p.createOfferOk = true) (hsl : p.setLocalDescOk = true)
    (hm : p.marshalOk = true) (hw : p.writeJsonOk = true) :
    syncPeer tl p = ⟨p, [SyncEv.offer], true⟩ := by
  have hsres : peerSres tl p = ⟨p.senders, senderIds p.senders, [], true⟩ :=
    processSenders_id tl p.removeTrackOk p.senders hS
  have hares : peerAres tl p = ⟨[], [], true⟩ := by
    unfold peerAres
    rw [hsres]
    refine processAdds_none p.addTrackOk _ tl (fun k hk => ?_)
    show k ∈ senderIds p.senders ++ receiverTrackIds p.receivers
    rw [List.mem_append]
    exact hT k hk
  rw [syncPeer_ok_eq tl p (by rw [hsres]) (by rw [hares]) hco hsl hm hw]
  rw [hsres, hares]
  show (⟨{ p with senders := p.senders ++ [] }, [] ++ [] ++ [SyncEv.offer], true⟩ :
    PeerSyncResult) = ⟨p, [SyncEv.offer], true⟩
  rw [List.append_nil]
  rfl

theorem syncPeer_fail_no_offer (tl : List (String × Track)) (p : PeerConn)
    (hfail : ¬(p.createOfferOk = true ∧ p.setLocalDescOk = true ∧
      p.marshalOk = true)) :
    SyncEv.offer ∉ (syncPeer tl p).evs ∧ (syncPeer tl p).ok = false := by
  have hnof := processSenders_no_offer tl p.removeTrackOk p.senders
  have hnoa := processAdds_no_offer p.addTrackOk
    ((peerSres tl p).existing ++ receiverTrackIds p.receivers) tl
  by_cases hs : (peerSres tl p).ok = true
  · by_cases ha : (peerAres tl p).ok = true
    · by_cases hco : p.createOfferOk = true
      · by_cases hsl : p.setLocalDescOk = true
        · have hm : p.marshalOk = false := by
            rcases Bool.dichotomy p.marshalOk with hm | hm
            · exact hm
            · exact absurd ⟨hco, hsl, hm⟩ hfail
          simp only [syncPeer]
          rw [if_neg (by simp [hs]), if_neg (by simp [ha]),
            if_neg (by simp [hco]), if_neg (by simp [hsl]),
            if_pos (by simp [hm])]
          refine ⟨?_, rfl⟩
          intro hmem
          rcases List.mem_append.mp hmem with hc | hc
          · exact hnof hc
          · exact hnoa hc
        · rw [Bool.not_eq_true] at hsl
          simp only [syncPeer]
          rw [if_neg (by simp [hs]), if_neg (by simp [ha]),
            if_neg (by simp [hco]), if_pos (by simp [hsl])]
          refine ⟨?_, rfl⟩
          intro hmem
          rcases List.mem_append.mp hmem with hc | hc
          · exact hnof hc
          · exact hnoa hc
      · rw [Bool.not_eq_true] at hco
        simp only [syncPeer]
        rw [if_neg (by simp [hs]), if_neg (by simp [ha]), if_pos (by simp [hco])]
        refine ⟨?_, rfl⟩
        intro hmem
        rcases List.mem_append.mp hmem with hc | hc
        · exact hnof hc
        · exact hnoa hc
    · rw [Bool.not_eq_true] at ha
      simp only [syncPeer]
      rw [if_neg (by simp [hs]), if_pos (by simp [ha])]
      refine ⟨?_, rfl⟩
      intro hmem
      rcases List.mem_append.mp hmem with hc | hc
      · exact hnof hc
      · exact hnoa hc
  · rw [Bool.not_eq_true] at hs
    simp only [syncPeer]
    rw [if_pos (by simp [hs])]
    exact ⟨hnof, rfl⟩

/-! Characterization of a whole pass. -/

theorem attemptSyncGo_false_src (tl : List (String × Track)) (ps : List PeerConn)
    (i : Nat) (h : (attemptSyncGo tl ps i).tryAgain = false) :
    ∀ p2 ∈ (attemptSyncGo tl ps i).peers, ∃ p ∈ ps,
      p.connState ≠ PCState.closed ∧ (syncPeer tl p).ok = true ∧
      (syncPeer tl p).peer = p2 := by
  induction ps generalizing i with
  | nil =>
    intro p2 hp2
    simp [attemptSyncGo] at hp2
  | cons p rest ih =>
    by_cases hc : p.connState = PCState.closed
    · simp only [attemptSyncGo] at h
      rw [if_pos hc] at h
      simp at h
    · simp only [attemptSyncGo] at h ⊢
      rw [if_neg hc] at h ⊢
      rcases Bool.dichotomy (syncPeer tl p).ok with hok | hok
      · rw [if_neg (by simp [hok])] at h
        simp at h
      · rw [if_pos (by simp [hok])] at h ⊢
        have h2 : (attemptSyncGo tl rest (i + 1)).tryAgain = false := h
        intro p2 hp2
        have hp2b : p2 ∈ (syncPeer tl p).peer ::
            (attemptSyncGo tl rest (i + 1)).peers := hp2
        rcases List.mem_cons.mp hp2b with he | he
        · exact ⟨p, List.mem_cons_self _ _, hc, hok, he.symm⟩
        · obtain ⟨q, hq, hqc, hqok, hqe⟩ := ih (i + 1) h2 p2 he
          exact ⟨q, List.mem_cons_of_mem _ hq, hqc, hqok, hqe⟩

theorem attemptSyncGo_converged (tl : List (String × Track)) (ps : List PeerConn)
    (i : Nat) (h : ∀ p ∈ ps, p.connState ≠ PCState.closed ∧
      syncPeer tl p = ⟨p, [SyncEv.offer], true⟩) :
    (attemptSyncGo tl ps i).peers = ps ∧
    (attemptSyncGo tl ps i).tryAgain = false ∧
    ∀ e ∈ (attemptSyncGo tl ps i).evs, ∃ j, e = RoomEv.peerEv j SyncEv.offer := by
  induction ps generalizing i with
  | nil =>
    refine ⟨rfl, rfl, ?_⟩
    intro e he
    simp [attemptSyncGo] at he
  | cons p rest ih =>
    obtain ⟨hc, hsp⟩ := h p (List.mem_cons_self _ _)
    obtain ⟨ihp, iht, ihe⟩ := ih (i + 1)
      (fun q hq => h q (List.mem_cons_of_mem _ hq))
    simp only [attemptSyncGo]
    rw [if_neg hc, hsp]
    rw [if_pos rfl]
    refine ⟨?_, ?_, ?_⟩
    · show p :: (attemptSyncGo tl rest (i + 1)).peers = p :: rest
      rw [ihp]
    · exact iht
    · intro e he
      have heb : e ∈ RoomEv.peerEv i SyncEv.offer ::
          (attemptSyncGo tl rest (i + 1)).evs := he
      rcases List.mem_cons.mp heb with he2 | he2
      · exact ⟨i, he2⟩
      · exact ihe e he2

theorem syncPeer_after_ok (tl : List (String × Track)) (p : PeerConn)
    (hwf : ∀ kt ∈ tl, kt.2.id = kt.1) (h : (syncPeer tl p).ok = true) :
    syncPeer tl ((syncPeer tl p).peer) =
      ⟨(syncPeer tl p).peer, [SyncEv.offer], true⟩ := by
  obtain ⟨hpid, hcs, hrecv, hrok, haok, hcoF, hslF, hmF, hwF⟩ :=
    syncPeer_ok_fields tl p h
  obtain ⟨hs, ha, hco, hsl, hm, hw⟩ := syncPeer_ok_inv tl p h
  apply syncPeer_converged
  · intro x hx
    rcases (syncPeer_ok_mem tl p hwf h x).mp hx with ⟨_, hk⟩ | ⟨hk, _, _⟩
    · exact hk
    · exact hk
  · intro k hk
    by_cases hks : k ∈ senderIds (syncPeer tl p).peer.senders
    · exact Or.inl hks
    · right
      rw [hrecv]
      by_contra hkr
      apply hks
      rw [syncPeer_ok_mem tl p hwf h k]
      by_cases hS0 : k ∈ senderIds p.senders
      · exact Or.inl ⟨hS0, hk⟩
      · exact Or.inr ⟨hk, hS0, hkr⟩
  · rw [hcoF]
    exact hco
  · rw [hslF]
    exact hsl
  · rw [hmF]
    exact hm
  · rw [hwF]
    exact hw

theorem syncPeer_preserves_no_loopback (tl : List (String × Track))
    (p : PeerConn) (hwf : ∀ kt ∈ tl, kt.2.id = kt.1)
    (h : (syncPeer tl p).ok = true)
    (hdisj : ∀ x ∈ senderIds p.senders, x ∉ receiverTrackIds p.receivers) :
    ∀ x ∈ senderIds (syncPeer tl p).peer.senders,
      x ∉ receiverTrackIds (syncPeer tl p).peer.receivers := by
  intro x hx
  rw [(syncPeer_ok_fields tl p h).2.2.1]
  rcases (syncPeer_ok_mem tl p hwf h x).mp hx with ⟨hs, _⟩ | ⟨_, _, hnr⟩
  · exact hdisj x hs
  · exact hnr

theorem attemptSync_converged_peers (tl : List (String × Track))
    (ps : List PeerConn) (hwf : ∀ kt ∈ tl, kt.2.id = kt.1)
    (h : (attemptSync tl ps).tryAgain = false) :
    ∀ p2 ∈ (attemptSync tl ps).peers, p2.connState ≠ PCState.closed ∧
      syncPeer tl p2 = ⟨p2, [SyncEv.offer], true⟩ := by
  intro p2 hp2
  obtain ⟨p, hp, hc, hok, hpe⟩ := attemptSyncGo_false_src tl ps 0 h p2 hp2
  subst hpe
  constructor
  · rw [(syncPeer_ok_fields tl p hok).2.1]
    exact hc
  · exact syncPeer_after_ok tl p hwf hok

theorem attemptSyncGo_offer_fail (tl : List (String × Track)) (pre : List PeerConn)
    (p : PeerConn) (post : List PeerConn) (i : Nat)
    (hpre : ∀ q ∈ pre, q.connState ≠ PCState.closed ∧ (syncPeer tl q).ok = true)
    (hp : p.connState ≠ PCState.closed)
    (hfail : ¬(p.createOfferOk = true ∧ p.setLocalDescOk = true ∧
      p.marshalOk = true)) :
    (attemptSyncGo tl (pre ++ p :: post) i).tryAgain = true ∧
    RoomEv.peerEv (i + pre.length) SyncEv.offer ∉
      (attemptSyncGo tl (pre ++ p :: post) i).evs := by
  induction pre generalizing i with
  | nil =>
    obtain ⟨hno, hok⟩ := syncPeer_fail_no_offer tl p hfail
    simp only [List.nil_append, attemptSyncGo, List.length_nil, Nat.add_zero]
    rw [if_neg hp, if_neg (by simp [hok])]
    refine ⟨rfl, ?_⟩
    intro hmem
    have hmem2 : RoomEv.peerEv i SyncEv.offer ∈
        (syncPeer tl p).evs.map (RoomEv.peerEv i) := hmem
    rcases List.mem_map.mp hmem2 with ⟨e, he, heq⟩
    injection heq with h1 h2
    rw [h2] at he
    exact hno he
  | cons q pre2 ih =>
    obtain ⟨hqc, hqok⟩ := hpre q (List.mem_cons_self _ _)
    obtain ⟨iht, ihm⟩ := ih (i + 1) (fun r hr => hpre r (List.mem_cons_of_mem _ hr))
    simp only [List.cons_append, attemptSyncGo]
    rw [if_neg hqc, if_pos (by simp [hqok])]
    refine ⟨iht, ?_⟩
    intro hmem
    have hmem2 : RoomEv.peerEv (i + (q :: pre2).length) SyncEv.offer ∈
        (syncPeer tl q).evs.map (RoomEv.peerEv i) ++
          (attemptSyncGo tl (pre2 ++ p :: post) (i + 1)).evs := hmem
    rcases List.mem_append.mp hmem2 with hmm | hmm
    · rcases List.mem_map.mp hmm with ⟨e, he, heq⟩
      injection heq with h1 h2
      simp [List.length_cons] at h1
    · have hidx : i + (q :: pre2).length = (i + 1) + pre2.length := by
        simp [List.length_cons]
        omega
      rw [hidx] at hmm
      exact ihm hmm

theorem attemptSyncGo_closed_splice (tl : List (String × Track))
    (pre : List PeerConn) (c : PeerConn) (post : List PeerConn) (i : Nat)
    (hpre : ∀ q ∈ pre, q.connState ≠ PCState.closed ∧ (syncPeer tl q).ok = true)
    (hc : c.connState = PCState.closed) :
    (attemptSyncGo tl (pre ++ c :: post) i).tryAgain = true ∧
    (attemptSyncGo tl (pre ++ c :: post) i).peers =
      pre.map (fun q => (syncPeer tl q).peer) ++ post ∧
    RoomEv.removedPeer (i + pre.length) ∈
      (attemptSyncGo tl (pre ++ c :: post) i).evs ∧
    ∀ j e, RoomEv.peerEv j e ∈ (attemptSyncGo tl (pre ++ c :: post) i).evs →
      i ≤ j ∧ j < i + pre.length := by
  induction pre generalizing i with
  | nil =>
    simp only [List.nil_append, attemptSyncGo, List.length_nil, Nat.add_zero,
      List.map_nil]
    rw [if_pos hc]
    refine ⟨rfl, rfl, ?_, ?_⟩
    · show RoomEv.removedPeer i ∈ [RoomEv.removedPeer i]
      exact List.mem_cons_self _ _
    · intro j e hmem
      have hm2 : RoomEv.peerEv j e ∈ [RoomEv.removedPeer i] := hmem
      simp at hm2
  | cons q pre2 ih =>
    obtain ⟨hqc, hqok⟩ := hpre q (List.mem_cons_self _ _)
    obtain ⟨iht, ihp, ihr, ihb⟩ :=
      ih (i + 1) (fun r hr => hpre r (List.mem_cons_of_mem _ hr))
    have hidx : i + (q :: pre2).length = (i + 1) + pre2.length := by
      simp [List.length_cons]
      omega
    simp only [List.cons_append, attemptSyncGo]
    rw [if_neg hqc, if_pos (by simp [hqok])]
    refine ⟨iht, ?_, ?_, ?_⟩
    · show (syncPeer tl q).peer ::
          (attemptSyncGo tl (pre2 ++ c :: post) (i + 1)).peers =
        (q :: pre2).map (fun r => (syncPeer tl r).peer) ++ post
      rw [List.map_cons, List.cons_append, ihp]
    · show RoomEv.removedPeer (i + (q :: pre2).length) ∈
        (syncPeer tl q).evs.map (RoomEv.peerEv i) ++
          (attemptSyncGo tl (pre2 ++ c :: post) (i + 1)).evs
      rw [hidx]
      exact List.mem_append.mpr (Or.inr ihr)
    · intro j e hmem
      have hmem2 : RoomEv.peerEv j e ∈
          (syncPeer tl q).evs.map (RoomEv.peerEv i) ++
            (attemptSyncGo tl (pre2 ++ c :: post) (i + 1)).evs := hmem
      rcases List.mem_append.mp hmem2 with hmm | hmm
      · rcases List.mem_map.mp hmm with ⟨e2, he2, heq⟩
        injection heq with h1 h2
        rw [hidx]
        simp [← h1]
        omega
      · obtain ⟨hb1, hb2⟩ := ihb j e hmm
        rw [hidx]
        omega

/-! Characterization of the retry loop of signalPeerConnections. -/

theorem signalLoopGo_bound (tl : List (String × Track)) (fuel : Nat)
    (ps : List PeerConn) :
    (signalLoopGo tl fuel ps).attempts ≤ fuel ∧
    ((signalLoopGo tl fuel ps).rescheduled = true →
      (signalLoopGo tl fuel ps).attempts = fuel) := by
  induction fuel generalizing ps with
  | zero => exact ⟨Nat.le_refl 0, fun _ => rfl⟩
  | succ n ih =>
    simp only [signalLoopGo]
    rcases Bool.dichotomy (attemptSync tl ps).tryAgain with ht | ht
    · rw [if_neg (by simp [ht])]
      refine ⟨?_, ?_⟩
      · show 1 ≤ n + 1
        omega
      · intro hr
        have hr2 : false = true := hr
        simp at hr2
    · rw [if_pos (by simp [ht])]
      obtain ⟨ih1, ih2⟩ := ih ((attemptSync tl ps).peers)
      refine ⟨?_, ?_⟩
      · show (signalLoopGo tl n (attemptSync tl ps).peers).attempts + 1 ≤ n + 1
        omega
      · intro hr
        have hr2 : (signalLoopGo tl n (attemptSync tl ps).peers).rescheduled =
          true := hr
        show (signalLoopGo tl n (attemptSync tl ps).peers).attempts + 1 = n + 1
        rw [ih2 hr2]

theorem signalLoopGo_converged (tl : List (String × Track)) (ps : List PeerConn)
    (fuel : Nat) (h : (attemptSync tl ps).tryAgain = false) :
    signalLoopGo tl (fuel + 1) ps =
      ⟨(attemptSync tl ps).peers, (attemptSync tl ps).evs, 1, false⟩ := by
  simp only [signalLoopGo]
  rw [if_neg (by simp [h])]

/-! Claim theorems. -/

/-- C1: after a signal pass whose attemptSync returns false
(convergence), every peer of the room is live and the set of track
ids for which the peer has a sender with a non-nil track equals the
key set of the room track map minus the track ids appearing among the
peer receivers, so a peer never holds a sender for its own uploaded
track and holds one for every other forwarded track.  The two
well-formedness hypotheses hold for every registry state reachable by
joins and leaves (the domain of spec property P1): `addTrack` keys
the map by the stored track id, and no reachable peer already holds a
sender for a track it receives (new peers have no senders, and
`attemptSync` never adds a sender for a received id, see
`syncPeer_ok_mem`). -/
theorem C1_senders_eq_tracks_minus_receivers
    (tl : List (String × Track)) (peers : List PeerConn)
    (hwf : ∀ kt ∈ tl, kt.2.id = kt.1)
    (hdisj : ∀ p ∈ peers, ∀ x ∈ senderIds p.senders,
      x ∉ receiverTrackIds p.receivers)
    (hconv : (attemptSync tl peers).tryAgain = false) :
    ∀ p2 ∈ (attemptSync tl peers).peers,
      p2.connState ≠ PCState.closed ∧
      ∀ x, x ∈ senderIds p2.senders ↔
        (x ∈ trackKeys tl ∧ x ∉ receiverTrackIds p2.receivers) := by
  intro p2 hp2
  obtain ⟨p, hp, hc, hok, hpe⟩ := attemptSyncGo_false_src tl peers 0 hconv p2 hp2
  subst hpe
  obtain ⟨hpid, hcs, hrecv, hfields⟩ := syncPeer_ok_fields tl p hok
  refine ⟨by rw [hcs]; exact hc, ?_⟩
  intro x
  rw [syncPeer_ok_mem tl p hwf hok x, hrecv]
  constructor
  · rintro (⟨hx, hk⟩ | ⟨hk, hnx, hnr⟩)
    · exact ⟨hk, hdisj p hp x hx⟩
    · exact ⟨hk, hnr⟩
  · rintro ⟨hk, hnr⟩
    by_cases hx : x ∈ senderIds p.senders
    · exact Or.inl ⟨hx, hk⟩
    · exact Or.inr ⟨hk, hx, hnr⟩

/-- C1 witness: a two-peer room where peer 0 uploads trackA and peer
1 uploads nothing; the converged pass gives peer 0 no sender (its own
track is excluded) and peer 1 exactly the sender for trackA. -/
theorem C1_witness :
    (∀ kt ∈ tlExample, (kt.2).id = kt.1) ∧
    (∀ p ∈ [peerOriginA, peerBlank], ∀ x ∈ senderIds p.senders,
      x ∉ receiverTrackIds p.receivers) ∧
    (attemptSync tlExample [peerOriginA, peerBlank]).tryAgain = false ∧
    (∀ p2 ∈ (attemptSync tlExample [peerOriginA, peerBlank]).peers,
      p2.connState ≠ PCState.closed ∧
      ∀ x, x ∈ senderIds p2.senders ↔
        (x ∈ trackKeys tlExample ∧ x ∉ receiverTrackIds p2.receivers)) :=
  ⟨by decide, by decide, by decide,
    C1_senders_eq_tracks_minus_receivers tlExample [peerOriginA, peerBlank]
      (by decide) (by decide) (by decide)⟩

/-- C2 (amended): once a pass of attemptSync has returned false, a
second call with no intervening change performs no add-track and no
remove-track operations, leaves the peer list unchanged and returns
false, but it does NOT skip the offer step: every event it records is
an offer send (the source creates and sends an offer for every peer
on every pass, websockets.go lines 285 to 304). -/
theorem C2_second_pass_no_add_remove
    (tl : List (String × Track)) (peers : List PeerConn)
    (hwf : ∀ kt ∈ tl, kt.2.id = kt.1)
    (hconv : (attemptSync tl peers).tryAgain = false) :
    (attemptSync tl (attemptSync tl peers).peers).peers =
      (attemptSync tl peers).peers ∧
    (attemptSync tl (attemptSync tl peers).peers).tryAgain = false ∧
    ∀ e ∈ (attemptSync tl (attemptSync tl peers).peers).evs,
      ∃ j, e = RoomEv.peerEv j SyncEv.offer := by
  exact attemptSyncGo_converged tl (attemptSync tl peers).peers 0
    (attemptSync_converged_peers tl peers hwf hconv)

/-- C2 counterexample: a room with one blank peer and no tracks.  The
displayed pass returns false and leaves the state unchanged, so the
very same computation is a second call after a convergent pass with
no intervening change; yet its event list contains an offer send,
refuting the claim that no offer operation is performed and no offer
message is sent. -/
theorem C2_counterexample :
    attemptSync [] [peerBlank0] =
      ⟨[peerBlank0], [RoomEv.peerEv 0 SyncEv.offer], false⟩ := by decide

/-- C2 witness: the amended statement at the concrete two-peer room. -/
theorem C2_witness :
    (∀ kt ∈ tlExample, (kt.2).id = kt.1) ∧
    (attemptSync tlExample [peerOriginA, peerBlank]).tryAgain = false ∧
    ((attemptSync tlExample
        (attemptSync tlExample [peerOriginA, peerBlank]).peers).peers =
      (attemptSync tlExample [peerOriginA, peerBlank]).peers ∧
    (attemptSync tlExample
        (attemptSync tlExample [peerOriginA, peerBlank]).peers).tryAgain =
      false ∧
    ∀ e ∈ (attemptSync tlExample
        (attemptSync tlExample [peerOriginA, peerBlank]).peers).evs,
      ∃ j, e = RoomEv.peerEv j SyncEv.offer) :=
  ⟨by decide, by decide,
    C2_second_pass_no_add_remove tlExample [peerOriginA, peerBlank]
      (by decide) (by decide)⟩

/-- C3: the keyframe pinger does NOT stop when the owning session
ends.  The goroutine body (websockets.go lines 95 to 99) dispatches a
keyframe on every 3-second tick and never consults session state, so
for every tick strictly after the session ended the dispatch still
happens.  This evaluates the code at the failing input of the
code_bug verdict: the spec requires the PLI step to become
permanently disabled, the code keeps dispatching forever. -/
theorem C3_pinger_still_dispatches (endTick t : Nat) (h : endTick < t) :
    endTick < t ∧ t ∈ pingerDispatchTicks endTick (t + 1) :=
  ⟨h, by simp [pingerDispatchTicks, List.mem_filter, List.mem_range]⟩

/-- C3 witness: the session ends at tick 2, yet tick 5 still
dispatches a keyframe. -/
theorem C3_witness : 2 < 5 ∧ (2 < 5 ∧ 5 ∈ pingerDispatchTicks 2 6) :=
  ⟨by decide, C3_pinger_still_dispatches 2 5 (by decide)⟩

/-- C4 (amended): signalPeerConnections calls attemptSync at most 25
times and stops early when a pass reports no change (a convergent
pass ends the loop after that single call); when the budget is
exhausted it schedules itself again after 3 seconds; and on BOTH exit
paths, exhaustion included, the deferred epilogue releases the lock
and then dispatches a keyframe for the room (the Go defer runs on the
exhaustion return as well, so the converged path is not the only one
that dispatches). -/
theorem C4_signal_loop_structure (tl : List (String × Track))
    (peers : List PeerConn) :
    (signalPeerConnections tl peers).attempts ≤ 25 ∧
    ((signalPeerConnections tl peers).rescheduled = true →
      (signalPeerConnections tl peers).attempts = 25) ∧
    (signalPeerConnections tl peers).pli =
      dispatchKeyFrame (signalPeerConnections tl peers).peers ∧
    ∀ ps, (attemptSync tl ps).tryAgain = false →
      signalPeerConnections tl ps =
        ⟨(attemptSync tl ps).peers, (attemptSync tl ps).evs, 1, false,
          dispatchKeyFrame (attemptSync tl ps).peers⟩ := by
  refine ⟨(signalLoopGo_bound tl 25 peers).1,
    (signalLoopGo_bound tl 25 peers).2, rfl, ?_⟩
  intro ps h
  have h2 := signalLoopGo_converged tl ps 24 h
  simp only [signalPeerConnections]
  rw [show (25 : Nat) = 24 + 1 from rfl, h2]

/-- C4 counterexample: one peer whose CreateOffer always fails, so
every pass returns true; the loop exhausts its 25 attempts and
reschedules, and nevertheless a keyframe is dispatched (a PLI for the
receiver of trackA, SSRC 11), refuting the claim that the exhaustion
path returns without dispatching a keyframe. -/
theorem C4_counterexample :
    (signalPeerConnections [] [peerOfferFail]).rescheduled = true ∧
    (signalPeerConnections [] [peerOfferFail]).attempts = 25 ∧
    (signalPeerConnections [] [peerOfferFail]).pli = [11] := by decide

/-- C4 witness: the amended statement instantiated at the empty
room. -/
theorem C4_witness :
    (signalPeerConnections tlExample []).attempts ≤ 25 ∧
    ((signalPeerConnections tlExample []).rescheduled = true →
      (signalPeerConnections tlExample []).attempts = 25) ∧
    (signalPeerConnections tlExample []).pli =
      dispatchKeyFrame (signalPeerConnections tlExample []).peers ∧
    ∀ ps, (attemptSync tlExample ps).tryAgain = false →
      signalPeerConnections tlExample ps =
        ⟨(attemptSync tlExample ps).peers, (attemptSync tlExample ps).evs, 1,
          false, dispatchKeyFrame (attemptSync tlExample ps).peers⟩ :=
  C4_signal_loop_structure tlExample []

/-- C5 (amended): a read-loop iteration terminates the session
exactly when the frame is not well-formed JSON, or when it is a
candidate or answer frame whose payload fails to decode or to apply;
a frame with any other event (the switch has no default case) is
silently ignored and the loop continues. -/
theorem C5_read_loop_termination_iff (f : InboundFrame) :
    readLoopTerminates f = true ↔
      (f.validJson = false ∨
        ((f.event = "candidate" ∨ f.event = "answer") ∧
          (f.dataDecodeOk = false ∨ f.applyOk = false))) := by
  obtain ⟨vj, ev, dd, ap⟩ := f
  by_cases hc : ev = "candidate"
  · subst hc
    cases vj <;> cases dd <;> cases ap <;> simp [readLoopTerminates]
  · by_cases ha : ev = "answer"
    · subst ha
      cases vj <;> cases dd <;> cases ap <;> simp [readLoopTerminates, hc]
    · cases vj <;> cases dd <;> cases ap <;> simp [readLoopTerminates, hc, ha]

/-- C5 counterexample: a well-formed JSON frame with the unknown
event `offer` does NOT terminate the session (the loop continues),
refuting the claim that unknown events terminate it. -/
theorem C5_counterexample :
    readLoopTerminates ⟨true, "offer", true, true⟩ = false := by decide

/-- C6: within one attemptSync pass, if for a reached peer (all peers
before it process successfully and it is not closed) the CreateOffer,
SetLocalDescription or json.Marshal step fails, the pass returns true
and no offer frame is handed to WriteJSON for that peer: the offer
event for its index is absent.  Offer frames are written only after
those steps succeed. -/
theorem C6_offer_failure_no_offer_sent
    (tl : List (String × Track)) (pre : List PeerConn) (p : PeerConn)
    (post : List PeerConn)
    (hpre : ∀ q ∈ pre, q.connState ≠ PCState.closed ∧ (syncPeer tl q).ok = true)
    (hp : p.connState ≠ PCState.closed)
    (hfail : ¬(p.createOfferOk = true ∧ p.setLocalDescOk = true ∧
      p.marshalOk = true)) :
    (attemptSync tl (pre ++ p :: post)).tryAgain = true ∧
    RoomEv.peerEv pre.length SyncEv.offer ∉
      (attemptSync tl (pre ++ p :: post)).evs := by
  have h := attemptSyncGo_offer_fail tl pre p post 0 hpre hp hfail
  rwa [Nat.zero_add] at h

/-- C6 witness: a single peer whose CreateOffer fails; the pass
returns true and sends it no offer. -/
theorem C6_witness :
    (∀ q ∈ ([] : List PeerConn), q.connState ≠ PCState.closed ∧
      (syncPeer tlExample q).ok = true) ∧
    peerOfferFail.connState ≠ PCState.closed ∧
    ¬(peerOfferFail.createOfferOk = true ∧
      peerOfferFail.setLocalDescOk = true ∧ peerOfferFail.marshalOk = true) ∧
    ((attemptSync tlExample ([] ++ peerOfferFail :: [])).tryAgain = true ∧
      RoomEv.peerEv (List.length ([] : List PeerConn)) SyncEv.offer ∉
        (attemptSync tlExample ([] ++ peerOfferFail :: [])).evs) :=
  ⟨by decide, by decide, by decide,
    C6_offer_failure_no_offer_sent tlExample [] peerOfferFail []
      (by decide) (by decide) (by decide)⟩

/-- C7 (amended): attemptSync splices out the FIRST Closed peer it
reaches, and only when the processing of every peer before it
succeeds: under those hypotheses the pass returns true, the resulting
peer list is (by pointer identity, the pid field) the old list with
exactly that one element removed and the relative order preserved,
the splice of that index is recorded, and no peer after the spliced
one is processed (every per-peer event has an index before it).  As
stated the claim is false: with an earlier failing peer, or with a
second Closed peer, the Closed peer is not removed. -/
theorem C7_first_closed_spliced (tl : List (String × Track))
    (pre : List PeerConn) (c : PeerConn) (post : List PeerConn)
    (hpre : ∀ q ∈ pre, q.connState ≠ PCState.closed ∧ (syncPeer tl q).ok = true)
    (hc : c.connState = PCState.closed) :
    (attemptSync tl (pre ++ c :: post)).tryAgain = true ∧
    (attemptSync tl (pre ++ c :: post)).peers.map PeerConn.pid =
      (pre ++ post).map PeerConn.pid ∧
    RoomEv.removedPeer pre.length ∈ (attemptSync tl (pre ++ c :: post)).evs ∧
    ∀ j e, RoomEv.peerEv j e ∈ (attemptSync tl (pre ++ c :: post)).evs →
      j < pre.length := by
  obtain ⟨h1, h2, h3, h4⟩ := attemptSyncGo_closed_splice tl pre c post 0 hpre hc
  refine ⟨h1, ?_, by rwa [Nat.zero_add] at h3, fun j e hm => ?_⟩
  · show List.map PeerConn.pid (attemptSyncGo tl (pre ++ c :: post) 0).peers =
      List.map PeerConn.pid (pre ++ post)
    rw [h2, List.map_append, List.map_append, List.map_map]
    congr 1
    apply List.map_congr_left
    intro q hq
    exact (syncPeer_ok_fields tl q (hpre q hq).2).1
  · have hb := (h4 j e hm).2
    rw [Nat.zero_add] at hb
    exact hb

/-- C7 counterexample: a room whose peer list contains a Closed peer
(at index 1) behind a peer whose CreateOffer fails.  The pass returns
true without removing the Closed peer: the claim that attemptSync
removes every Closed peer from the list is false. -/
theorem C7_counterexample :
    (attemptSync [] [peerOfferFail, peerClosed]).tryAgain = true ∧
    peerClosed ∈ (attemptSync [] [peerOfferFail, peerClosed]).peers ∧
    peerClosed.connState = PCState.closed := by decide

/-- C7 witness: a room holding only one Closed peer; the pass splices
it out and returns true. -/
theorem C7_witness :
    (∀ q ∈ ([] : List PeerConn), q.connState ≠ PCState.closed ∧
      (syncPeer tlExample q).ok = true) ∧
    peerClosed.connState = PCState.closed ∧
    ((attemptSync tlExample ([] ++ peerClosed :: [])).tryAgain = true ∧
    (attemptSync tlExample ([] ++ peerClosed :: [])).peers.map PeerConn.pid =
      (([] : List PeerConn) ++ ([] : List PeerConn)).map PeerConn.pid ∧
    RoomEv.removedPeer (List.length ([] : List PeerConn)) ∈
      (attemptSync tlExample ([] ++ peerClosed :: [])).evs ∧
    ∀ j e, RoomEv.peerEv j e ∈
        (attemptSync tlExample ([] ++ peerClosed :: [])).evs →
      j < List.length ([] : List PeerConn)) :=
  ⟨by decide, by decide,
    C7_first_closed_spliced tlExample [] peerClosed [] (by decide) (by decide)⟩

/-- C8: addTrack either aborts the process (models the panic when
NewTrackLocalStaticRTP fails) or returns a local track copying the
remote codec capability, id and stream id, and inserts it into the
room track map keyed by the remote id, creating the map lazily when
the room had none; the track map of every other room is unchanged. -/
theorem C8_addTrack_registry (t : RemoteTrack) (room : String)
    (reg : TrackRegistry) :
    (t.newLocalOk = false → addTrackReg t room reg = none) ∧
    (t.newLocalOk = true → ∃ loc reg2,
      addTrackReg t room reg = some (loc, reg2) ∧
      loc.codec = t.codec ∧ loc.id = t.id ∧ loc.streamID = t.streamID ∧
      (∃ m, alookup reg2 room = some m ∧ alookup m t.id = some loc) ∧
      ∀ r2, r2 ≠ room → alookup reg2 r2 = alookup reg r2) := by
  constructor
  · intro h
    simp [addTrackReg, h]
  · intro h
    refine ⟨⟨t.id, t.streamID, t.codec, 0⟩,
      upsert reg room
        (upsert ((alookup reg room).getD []) t.id ⟨t.id, t.streamID, t.codec, 0⟩),
      ?_, rfl, rfl, rfl, ?_, ?_⟩
    · simp [addTrackReg, h]
    · exact ⟨upsert ((alookup reg room).getD []) t.id ⟨t.id, t.streamID, t.codec, 0⟩,
        alookup_upsert_same reg room _,
        alookup_upsert_same ((alookup reg room).getD []) t.id _⟩
    · intro r2 hr2
      exact alookup_upsert_other reg room r2 _ hr2

/-- C8 witness: adding remoteA to the empty registry for room r1. -/
theorem C8_witness :
    remoteA.newLocalOk = true ∧ (∃ loc reg2,
      addTrackReg remoteA "r1" ([] : TrackRegistry) = some (loc, reg2) ∧
      loc.codec = remoteA.codec ∧ loc.id = remoteA.id ∧
      loc.streamID = remoteA.streamID ∧
      (∃ m, alookup reg2 "r1" = some m ∧ alookup m remoteA.id = some loc) ∧
      ∀ r2, r2 ≠ "r1" → alookup reg2 r2 = alookup ([] : TrackRegistry) r2) :=
  ⟨rfl, (C8_addTrack_registry remoteA "r1" []).2 rfl⟩

/-- C9: a request whose route variables carry no room id is not
rejected: the handler logs a diagnostic and continues with the empty
string as room id, and registering two such sessions appends both
peers to the peer list of the empty-string room, so they share one
room. -/
theorem C9_missing_room_id (vars : List (String × String))
    (h : alookup vars "uuid" = none) (reg : PeerRegistry) (p q : PeerConn) :
    muxVarsRoomUUID vars = ("", true) ∧
    peersOf (registerPeer (registerPeer reg (muxVarsRoomUUID vars).1 p)
      (muxVarsRoomUUID vars).1 q) "" = (peersOf reg "" ++ [p]) ++ [q] := by
  have hm : muxVarsRoomUUID vars = ("", true) := by
    simp [muxVarsRoomUUID, h]
  refine ⟨hm, ?_⟩
  rw [hm]
  show peersOf (registerPeer (registerPeer reg "" p) "" q) "" =
    (peersOf reg "" ++ [p]) ++ [q]
  simp only [registerPeer, peersOf, alookup_upsert_same, Option.getD_some]

/-- C9 witness: route variables without a uuid entry; two blank
sessions end up registered in the same empty-string room. -/
theorem C9_witness :
    alookup [("other", "x")] "uuid" = none ∧
    (muxVarsRoomUUID [("other", "x")] = ("", true) ∧
      peersOf (registerPeer (registerPeer ([] : PeerRegistry)
          (muxVarsRoomUUID [("other", "x")]).1 peerBlank0)
        (muxVarsRoomUUID [("other", "x")]).1 peerBlank) "" =
      (peersOf ([] : PeerRegistry) "" ++ [peerBlank0]) ++ [peerBlank]) :=
  ⟨by decide,
    C9_missing_room_id [("other", "x")] (by decide) [] peerBlank0 peerBlank⟩

/-- C10: for a room whose peer list is empty (a registered empty list
or an id never registered at all), signalPeerConnections makes a
single attemptSync call which iterates over no peers, performs no
operations and returns false, never reaches the exhaustion path, and
the deferred keyframe dispatch writes no RTCP. -/
theorem C10_empty_room_signal (tl : List (String × Track))
    (reg : PeerRegistry) (room : String) (h : peersOf reg room = []) :
    signalPeerConnections tl (peersOf reg room) = ⟨[], [], 1, false, []⟩ := by
  rw [h]
  rfl

/-- C10 witness: an id never registered in the empty registry. -/
theorem C10_witness :
    peersOf ([] : PeerRegistry) "r9" = [] ∧
    signalPeerConnections tlExample (peersOf ([] : PeerRegistry) "r9") =
      ⟨[], [], 1, false, []⟩ :=
  ⟨rfl, C10_empty_room_signal tlExample [] "r9" rfl⟩

end ConferenceBackend
